import Mathlib

/-
Verification of the gitasay program (main.go): a CLI that selects one verse
from an embedded corpus (randomly or by exact chapter/verse lookup), wraps
text to a 70-column display width, and prints the verse with a chosen
translator commentary. Strings are modelled as lists of unicode scalar
values (Lean Char = Go rune), so lengths count runes exactly as
utf8.RuneCountInString does.
-/

namespace Gitasay

/-- Go unicode.IsSpace, the whitespace notion used by strings.Fields and
strings.TrimSpace: Latin-1 white space plus the Unicode White_Space code
points outside Latin-1. -/
def goIsSpace (c : Char) : Bool :=
  c.toNat = 9 || c.toNat = 10 || c.toNat = 11 || c.toNat = 12 || c.toNat = 13 ||
  c.toNat = 32 || c.toNat = 0x85 || c.toNat = 0xA0 || c.toNat = 0x1680 ||
  c.toNat = 0x2000 || c.toNat = 0x2001 || c.toNat = 0x2002 || c.toNat = 0x2003 ||
  c.toNat = 0x2004 || c.toNat = 0x2005 || c.toNat = 0x2006 || c.toNat = 0x2007 ||
  c.toNat = 0x2008 || c.toNat = 0x2009 || c.toNat = 0x200A || c.toNat = 0x2028 ||
  c.toNat = 0x2029 || c.toNat = 0x202F || c.toNat = 0x205F || c.toNat = 0x3000

/-- Helper of fields: the token group contributed by a non-space head rune c,
given the remaining runes cs and the fields of cs. -/
def fieldsCons (c : Char) (cs : List Char) (ws : List (List Char)) : List (List Char) :=
  match cs, ws with
  | [], _ => [[c]]
  | d :: _, ws =>
    cond (goIsSpace d) ([c] :: ws)
      (match ws with
       | [] => [[c]]
       | w :: ws1 => (c :: w) :: ws1)

/-- strings.Fields: split a rune sequence around runs of white space,
producing the list of maximal non-space tokens (no empty tokens). -/
def fields : List Char -> List (List Char)
  | [] => []
  | c :: cs => cond (goIsSpace c) (fields cs) (fieldsCons c cs (fields cs))

/-- strings.ContainsAny(word, ".!?"): the token has a sentence mark anywhere. -/
def containsMark (w : List Char) : Bool :=
  w.any (fun c => c = '.' || c = '!' || c = '?')

/-- The sentence-break test of wrapText, applied when a next token exists:
strings.ContainsAny(word, ".!?") and the next token does not begin with a
closing parenthesis or a comma (strings.HasPrefix on words at i+1). -/
def sentenceBreak (w next : List Char) : Bool :=
  containsMark w && !(next.head? == some ')') && !(next.head? == some ',')

/-- One iteration head of the wrapText loop: given the running line length
and the rune length of the next word, produce the separator emitted before
the word together with the running length after the word is appended.
Mirrors lines 95-104 of main.go with displayWidth = 70. -/
def wrapStep (cur wordLen : Nat) : List Char × Nat :=
  if 70 < cur + wordLen + 1 ∧ 0 < cur then (['\n'], wordLen)
  else if 0 < cur then ([' '], cur + 1 + wordLen)
  else ([], cur + wordLen)

/-- The wrapText loop over the token list, carrying the running line
length.  After a non-final word, the forced sentence break fires exactly
when sentenceBreak holds of the word and its successor. -/
def wrapWords : List (List Char) → Nat → List Char
  | [], _ => []
  | [w], cur => (wrapStep cur w.length).1 ++ w
  | w :: next :: rest, cur =>
    if sentenceBreak w next then
      (wrapStep cur w.length).1 ++ w ++ '\n' :: wrapWords (next :: rest) 0
    else
      (wrapStep cur w.length).1 ++ w ++ wrapWords (next :: rest) (wrapStep cur w.length).2

/-- wrapText from main.go: split into fields and run the wrapping loop with
an empty running line. -/
def wrapText (s : String) : String :=
  String.mk (wrapWords (fields s.data) 0)

/-- strings.Split on a one-rune separator (used with the newline for the
Sanskrit block and with the period for the transliteration block).
Like Go, the empty input yields one empty piece. -/
def splitOnC (sep : Char) : List Char → List (List Char)
  | [] => [[]]
  | c :: cs =>
    if c = sep then [] :: splitOnC sep cs
    else (c :: (splitOnC sep cs).headI) :: (splitOnC sep cs).tail

/-- strings.TrimSpace: drop white space from both ends. -/
def goTrimSpace (l : List Char) : List Char :=
  ((l.dropWhile goIsSpace).reverse.dropWhile goIsSpace).reverse

/-- ANSI bold escape written by the presenter. -/
def Bold : String := "\x1b[1m"

/-- ANSI dim escape written by the presenter. -/
def Dim : String := "\x1b[2m"

/-- ANSI reset escape written by the presenter. -/
def Reset : String := "\x1b[0m"

/-- Per-language text pair of a chapter (meaning and summary fields). -/
structure LangText where
  en : String
  hi : String
deriving DecidableEq

/-- Chapter record of the dataset. -/
structure Chapter where
  chapterNumber : Int
  versesCount : Int
  name : String
  translation : String
  transliteration : String
  meaning : LangText
  summary : LangText
deriving DecidableEq

/-- Translator entry with an ht text field (tej). -/
structure TejEntry where
  author : String
  ht : String
deriving DecidableEq

/-- Translator entry with et and ec text fields (siva). -/
structure SivaEntry where
  author : String
  et : String
  ec : String
deriving DecidableEq

/-- Translator entry with an et text field (purohit). -/
structure PurohitEntry where
  author : String
  et : String
deriving DecidableEq

/-- Translator entry with an hc text field (chinmay). -/
structure ChinmayEntry where
  author : String
  hc : String
deriving DecidableEq

/-- Translator entry with an et text field (san). -/
structure SanEntry where
  author : String
  et : String
deriving DecidableEq

/-- Translator entry with an et text field (adi). -/
structure AdiEntry where
  author : String
  et : String
deriving DecidableEq

/-- Sloka (verse) record of the dataset. -/
structure Sloka where
  id : String
  chapter : Int
  verse : Int
  slok : String
  transliteration : String
  tej : TejEntry
  siva : SivaEntry
  purohit : PurohitEntry
  chinmay : ChinmayEntry
  san : SanEntry
  adi : AdiEntry
deriving DecidableEq

/-- AllSlokas: the parsed dataset. -/
structure AllSlokas where
  chapters : List Chapter
  slokas : List Sloka
deriving DecidableEq

/-- Parsed command-line flags. -/
structure Flags where
  translation : String
  chapterInfo : Bool
  c : Int
  v : Int
deriving DecidableEq

/-- The flag defaults declared at lines 126-129 of main.go. -/
def defaultFlags : Flags := ⟨"siva", false, 0, 0⟩

/-- The enumerated valid translator sources, in declaration order. -/
def validSources : List String := ["siva", "purohit", "adi", "san", "tej", "chinmay"]

/-- The validation loop over validSources: true iff the flag value equals
one of them. -/
def validSource (t : String) : Bool := validSources.contains t

/-- The switch at lines 230-249: translation text and author for the chosen
source.  An unmatched source leaves both Go string variables zero valued. -/
def pickTranslation (src : String) (s : Sloka) : String × String :=
  if src = "siva" then (s.siva.et, s.siva.author)
  else if src = "purohit" then (s.purohit.et, s.purohit.author)
  else if src = "adi" then (s.adi.et, s.adi.author)
  else if src = "san" then (s.san.et, s.san.author)
  else if src = "tej" then (s.tej.ht, s.tej.author)
  else if src = "chinmay" then (s.chinmay.hc, s.chinmay.author)
  else ("", "")

/-- The chapter-info loop at lines 192-204: the first chapter whose number
equals the selected verse chapter yields the block, otherwise nothing is
printed. -/
def chapterBlock (chapters : List Chapter) (verseChapter : Int) : String :=
  match chapters.find? (fun ch => ch.chapterNumber == verseChapter) with
  | none => ""
  | some ch =>
    Bold ++ "Chapter " ++ toString ch.chapterNumber ++ ": " ++ ch.name ++ Reset ++ "\n"
    ++ (if ch.translation ≠ "" then "(" ++ ch.translation ++ ")\n" else "")
    ++ (if ch.meaning.en ≠ "" then wrapText ("Meaning: " ++ ch.meaning.en) ++ "\n" else "")
    ++ "\n"

/-- One block of per-line printing (lines 211-216 and 220-225): split the
text on the separator, and for every piece with non-blank trim, print the
wrapped trimmed piece followed by a newline. -/
def textLines (sep : Char) (text : String) : String :=
  String.join ((splitOnC sep text.data).map (fun line =>
    if goTrimSpace line = [] then ""
    else wrapText (String.mk (goTrimSpace line)) ++ "\n"))

/-- The full verse output of lines 188-255 for a selected sloka. -/
def renderOutput (flags : Flags) (all : AllSlokas) (s : Sloka) : String :=
  "\n"
  ++ (if flags.chapterInfo then chapterBlock all.chapters s.chapter else "")
  ++ Bold ++ "Chapter " ++ toString s.chapter ++ ", Verse " ++ toString s.verse ++ Reset ++ "\n\n"
  ++ textLines '\n' s.slok ++ "\n"
  ++ textLines '.' s.transliteration ++ "\n"
  ++ wrapText (pickTranslation flags.translation s).1 ++ "\n"
  ++ Dim ++ "(" ++ (pickTranslation flags.translation s).2 ++ ")" ++ Reset ++ "\n"
  ++ "\n"

/-- The exact-lookup loop at lines 167-173: first sloka in load order whose
chapter and verse equal the flag values. -/
def findSloka (slokas : List Sloka) (c v : Int) : Option Sloka :=
  slokas.find? (fun s => s.chapter == c && s.verse == v)

/-- Verse selection, lines 165-186.  The parameter r models the value
returned by rand.Intn(len(slokas)); its contract guarantees r below the
length, so the final branch is unreachable in any actual run. -/
def selectSloka (slokas : List Sloka) (c v : Int) (r : Nat) : Except String Sloka :=
  if 0 < c ∧ 0 < v then
    match findSloka slokas c v with
    | some s => .ok s
    | none => .error ("Chapter " ++ toString c ++ ", Verse " ++ toString v ++ " not found.\n")
  else if slokas.length = 0 then
    .error "No slokas found in the JSON data.\n"
  else if h : r < slokas.length then
    .ok (slokas.get ⟨r, h⟩)
  else
    .error "unreachable: rand.Intn returns an index below the length"

/-- Exit status and the text written to each standard stream.  Every fmt
print call of main.go goes through fmt.Printf or fmt.Println, hence to
standard output; nothing is ever written to standard error. -/
structure ProcResult where
  stdout : String
  stderr : String
  exitCode : Nat
deriving DecidableEq

/-- The whole of main, lines 124-256.  readErr models the result of reading
the embedded gita.json (some message on failure), parsed models the result
of json.Unmarshal, and r models rand.Intn as in selectSloka. -/
def runMain (flags : Flags) (readErr : Option String) (parsed : Except String AllSlokas)
    (r : Nat) : ProcResult :=
  if validSource flags.translation = false then
    ⟨"Invalid translation source: " ++ flags.translation ++ "\n"
      ++ "Valid sources: siva, purohit, adi, san, tej, chinmay\n", "", 1⟩
  else
    match readErr with
    | some e => ⟨"Error reading embedded data: " ++ e ++ "\n", "", 1⟩
    | none =>
      match parsed with
      | .error e => ⟨"Error parsing JSON: " ++ e ++ "\n", "", 1⟩
      | .ok all =>
        match selectSloka all.slokas flags.c flags.v r with
        | .error msg => ⟨msg, "", 1⟩
        | .ok s => ⟨renderOutput flags all s, "", 0⟩

/-- Spec wording of claim C3: the token ends in a sentence-terminating
mark.  Stated for comparison with containsMark, the test the code runs. -/
def endsInMark (w : List Char) : Bool :=
  match w.getLast? with
  | some c => c = '.' || c = '!' || c = '?'
  | none => false

/-- The first rune of a piece of text is white space (vacuously true of the
empty text).  Used to state where a token of the input may end. -/
def headSpace : List Char → Prop
  | [] => True
  | c :: _ => goIsSpace c = true

/-- Every token is non-empty and free of white space, the shape
strings.Fields guarantees. -/
def tokensOK (ws : List (List Char)) : Prop :=
  ∀ w ∈ ws, w ≠ [] ∧ ∀ c ∈ w, goIsSpace c = false

/-- tailJoined ws t: t is the concatenation, over ws in order, of one
single-rune separator (space or newline) followed by the token. -/
def tailJoined : List (List Char) → List Char → Prop
  | [], t => t = []
  | w :: ws, t => ∃ c t2, (c = ' ' ∨ c = '\n') ∧ t = c :: (w ++ t2) ∧ tailJoined ws t2

/-- sepJoined ws out: out is the tokens of ws in order, consecutive tokens
separated by exactly one space or one newline, with no leading and no
trailing separator. -/
def sepJoined : List (List Char) → List Char → Prop
  | [], out => out = []
  | w :: ws, out => ∃ t, out = w ++ t ∧ tailJoined ws t

/-- A concrete chapter used to instantiate theorems with hypotheses. -/
def demoChapter : Chapter :=
  ⟨2, 72, "Sankhya Yoga", "Transcendental Knowledge", "Sankhya Yoga",
   ⟨"meaning text", "meaning hi"⟩, ⟨"summary text", "summary hi"⟩⟩

/-- A concrete sloka used to instantiate theorems with hypotheses. -/
def demoSloka : Sloka :=
  ⟨"BG2.47", 2, 47, "karmani eva adhikaraste", "karmany evadhikaras te",
   ⟨"Swami Tejomayananda", "tej ht text"⟩,
   ⟨"Swami Sivananda", "siva et text", "siva ec text"⟩,
   ⟨"Shri Purohit Swami", "purohit et text"⟩,
   ⟨"Swami Chinmayananda", "chinmay hc text"⟩,
   ⟨"Dr.S.Sankaranarayan", "san et text"⟩,
   ⟨"Adi Shankaracharya", "adi et text"⟩⟩

/-- A concrete corpus holding demoChapter and demoSloka. -/
def demoAll : AllSlokas := ⟨[demoChapter], [demoSloka]⟩

/-- A concrete corpus with verses but no chapter records. -/
def demoNoChapters : AllSlokas := ⟨[], [demoSloka]⟩

/-- A single word of 71 runes, one more than the display width. -/
def longWord : String :=
  "aaaaaaaaaaaaaaaaaaaaaaaaaaaaaaaaaaaaaaaaaaaaaaaaaaaaaaaaaaaaaaaaaaaaaaa"

/-! ## Lemmas about fields -/

theorem fields_cons_space {c : Char} (h : goIsSpace c = true) (cs : List Char) :
    fields (c :: cs) = fields cs := by
  simp [fields, h]

theorem fields_cons_nonspace {c : Char} (hc : goIsSpace c = false) (cs : List Char) :
    fields (c :: cs) =
      (c :: cs.takeWhile (fun d => !goIsSpace d)) ::
        fields (cs.dropWhile (fun d => !goIsSpace d)) := by
  induction cs generalizing c with
  | nil => simp [fields, fieldsCons, hc]
  | cons d cs1 ih =>
    by_cases hd : goIsSpace d = true
    · simp [fields, fieldsCons, hc, hd, List.takeWhile, List.dropWhile]
    · have hd2 : goIsSpace d = false := by simpa using hd
      rw [show fields (c :: d :: cs1) = fieldsCons c (d :: cs1) (fields (d :: cs1)) from by
            simp [fields, hc]]
      rw [ih hd2]
      simp [fieldsCons, hd2, List.takeWhile, List.dropWhile]

theorem takeWhile_append_word {w t : List Char} (hw : ∀ c ∈ w, goIsSpace c = false)
    (ht : headSpace t) : (w ++ t).takeWhile (fun d => !goIsSpace d) = w := by
  induction w with
  | nil =>
    cases t with
    | nil => rfl
    | cons c cs =>
      have : goIsSpace c = true := ht
      simp [List.takeWhile, this]
  | cons c w1 ih =>
    have hc : goIsSpace c = false := hw c (by simp)
    simp only [List.cons_append, List.takeWhile, hc]
    simpa using ih (fun d hd => hw d (by simp [hd]))

theorem dropWhile_append_word {w t : List Char} (hw : ∀ c ∈ w, goIsSpace c = false)
    (ht : headSpace t) : (w ++ t).dropWhile (fun d => !goIsSpace d) = t := by
  induction w with
  | nil =>
    cases t with
    | nil => rfl
    | cons c cs =>
      have : goIsSpace c = true := ht
      simp [List.dropWhile, this]
  | cons c w1 ih =>
    have hc : goIsSpace c = false := hw c (by simp)
    simp only [List.cons_append, List.dropWhile, hc]
    simpa using ih (fun d hd => hw d (by simp [hd]))

theorem fields_append {w t : List Char} (hne : w ≠ [])
    (hw : ∀ c ∈ w, goIsSpace c = false) (ht : headSpace t) :
    fields (w ++ t) = w :: fields t := by
  cases w with
  | nil => exact absurd rfl hne
  | cons c w1 =>
    have hc : goIsSpace c = false := hw c (by simp)
    rw [List.cons_append, fields_cons_nonspace hc,
        takeWhile_append_word (fun d hd => hw d (by simp [hd])) ht,
        dropWhile_append_word (fun d hd => hw d (by simp [hd])) ht]

theorem fields_tokens_aux : ∀ (n : Nat) (l : List Char), l.length ≤ n → tokensOK (fields l) := by
  intro n
  induction n with
  | zero =>
    intro l hl
    have : l = [] := List.length_eq_zero.mp (Nat.le_zero.mp hl)
    subst this
    intro w hw
    simp [fields] at hw
  | succ n ih =>
    intro l hl
    cases l with
    | nil => intro w hw; simp [fields] at hw
    | cons c cs =>
      have hcs : cs.length ≤ n := Nat.le_of_succ_le_succ hl
      by_cases hc : goIsSpace c = true
      · rw [fields_cons_space hc]
        exact ih cs hcs
      · have hc2 : goIsSpace c = false := by simpa using hc
        rw [fields_cons_nonspace hc2]
        intro w hw
        rcases List.mem_cons.mp hw with h1 | h2
        · subst h1
          refine ⟨by simp, ?_⟩
          intro d hd
          rcases List.mem_cons.mp hd with h3 | h4
          · subst h3; exact hc2
          · have := List.mem_takeWhile_imp h4
            simpa using this
        · have hlen : (cs.dropWhile (fun d => !goIsSpace d)).length ≤ n :=
            le_trans ((List.dropWhile_sublist _).length_le) hcs
          exact ih _ hlen w h2

theorem fields_tokens (l : List Char) : tokensOK (fields l) :=
  fields_tokens_aux l.length l le_rfl

/-! ## Lemmas about wrapStep and wrapWords -/

theorem wrapStep_one {cur wl : Nat} (h1 : 70 < cur + wl + 1) (h2 : 0 < cur) :
    wrapStep cur wl = (['\n'], wl) := by
  simp [wrapStep, h1, h2]

theorem wrapStep_two {cur wl : Nat} (h1 : ¬ 70 < cur + wl + 1) (h2 : 0 < cur) :
    wrapStep cur wl = ([' '], cur + 1 + wl) := by
  simp [wrapStep, h1, h2]

theorem wrapStep_three {cur wl : Nat} (h2 : ¬ 0 < cur) :
    wrapStep cur wl = ([], cur + wl) := by
  simp [wrapStep, h2]

theorem wrapStep_fst (cur wl : Nat) :
    (wrapStep cur wl).1 = [] ∨ (wrapStep cur wl).1 = ['\n'] ∨ (wrapStep cur wl).1 = [' '] := by
  unfold wrapStep
  split_ifs <;> simp

theorem wrapStep_snd_pos {cur wl : Nat} (hwl : 0 < wl) : 0 < (wrapStep cur wl).2 := by
  unfold wrapStep
  split_ifs <;> simp <;> omega

theorem wrapWords_one (w : List Char) (cur : Nat) :
    wrapWords [w] cur = (wrapStep cur w.length).1 ++ w := rfl

theorem wrapWords_cons_brk {w next : List Char} (rest : List (List Char)) (cur : Nat)
    (h : sentenceBreak w next = true) :
    wrapWords (w :: next :: rest) cur =
      (wrapStep cur w.length).1 ++ w ++ '\n' :: wrapWords (next :: rest) 0 := by
  simp [wrapWords, h]

theorem wrapWords_cons_nobrk {w next : List Char} (rest : List (List Char)) (cur : Nat)
    (h : sentenceBreak w next = false) :
    wrapWords (w :: next :: rest) cur =
      (wrapStep cur w.length).1 ++ w ++ wrapWords (next :: rest) (wrapStep cur w.length).2 := by
  simp [wrapWords, h]

theorem wrapStep_fst_of_pos {cur wl : Nat} (hcur : 0 < cur) :
    (wrapStep cur wl).1 = ['\n'] ∨ (wrapStep cur wl).1 = [' '] := by
  unfold wrapStep
  split_ifs <;> simp

theorem wrapWords_head {ws : List (List Char)} {cur : Nat} (hcur : 0 < cur) :
    ∀ c, (wrapWords ws cur).head? = some c → c = '\n' ∨ c = ' ' := by
  intro c hc
  cases ws with
  | nil => simp [wrapWords] at hc
  | cons w rest =>
    rcases @wrapStep_fst_of_pos cur w.length hcur with hp | hp
    · cases rest with
      | nil =>
        rw [wrapWords_one, hp] at hc
        simp at hc
        exact Or.inl hc.symm
      | cons next rest2 =>
        by_cases hb : sentenceBreak w next = true
        · rw [wrapWords_cons_brk rest2 cur hb, hp] at hc
          simp at hc
          exact Or.inl hc.symm
        · rw [wrapWords_cons_nobrk rest2 cur (by simpa using hb), hp] at hc
          simp at hc
          exact Or.inl hc.symm
    · cases rest with
      | nil =>
        rw [wrapWords_one, hp] at hc
        simp at hc
        exact Or.inr hc.symm
      | cons next rest2 =>
        by_cases hb : sentenceBreak w next = true
        · rw [wrapWords_cons_brk rest2 cur hb, hp] at hc
          simp at hc
          exact Or.inr hc.symm
        · rw [wrapWords_cons_nobrk rest2 cur (by simpa using hb), hp] at hc
          simp at hc
          exact Or.inr hc.symm

theorem headSpace_wrapWords {ws : List (List Char)} {cur : Nat} (hcur : 0 < cur) :
    headSpace (wrapWords ws cur) := by
  cases hw : wrapWords ws cur with
  | nil => trivial
  | cons c l =>
    have hh : (wrapWords ws cur).head? = some c := by rw [hw]; rfl
    show goIsSpace c = true
    rcases wrapWords_head hcur c hh with h | h <;> subst h <;> decide

theorem fields_sep_prepend {p x : List Char}
    (hp : p = [] ∨ p = ['\n'] ∨ p = [' ']) : fields (p ++ x) = fields x := by
  rcases hp with hp | hp | hp <;> subst hp
  · rfl
  · exact fields_cons_space (by decide) x
  · exact fields_cons_space (by decide) x

theorem fields_wrapWords {ws : List (List Char)} (h : tokensOK ws) :
    ∀ cur, fields (wrapWords ws cur) = ws := by
  induction ws with
  | nil => intro cur; rfl
  | cons w rest ih =>
    intro cur
    have hw := h w (by simp)
    have hrest : tokensOK rest := fun x hx => h x (by simp [hx])
    cases rest with
    | nil =>
      rw [wrapWords_one, fields_sep_prepend (wrapStep_fst cur w.length)]
      have := @fields_append w [] hw.1 hw.2 trivial
      simpa using this
    | cons next rest2 =>
      have hnl : 0 < w.length := List.length_pos.mpr hw.1
      by_cases hb : sentenceBreak w next = true
      · rw [wrapWords_cons_brk rest2 cur hb, List.append_assoc,
            fields_sep_prepend (wrapStep_fst cur w.length),
            fields_append hw.1 hw.2 (by exact (by decide : goIsSpace '\n' = true)),
            fields_cons_space (by decide), ih hrest 0]
      · rw [wrapWords_cons_nobrk rest2 cur (by simpa using hb), List.append_assoc,
            fields_sep_prepend (wrapStep_fst cur w.length),
            fields_append hw.1 hw.2 (headSpace_wrapWords (wrapStep_snd_pos hnl)),
            ih hrest _]

theorem wrap_joined {ws : List (List Char)} (h : tokensOK ws) :
    sepJoined ws (wrapWords ws 0) ∧ ∀ cur, 0 < cur → tailJoined ws (wrapWords ws cur) := by
  induction ws with
  | nil => exact ⟨rfl, fun cur hc => rfl⟩
  | cons w rest ih =>
    have hw := h w (by simp)
    have hrest : tokensOK rest := fun x hx => h x (by simp [hx])
    obtain ⟨ihS, ihT⟩ := ih hrest
    have hnl : 0 < w.length := List.length_pos.mpr hw.1
    have tailPart : ∀ cur : Nat, ∃ t,
        wrapWords (w :: rest) cur = (wrapStep cur w.length).1 ++ w ++ t ∧ tailJoined rest t := by
      intro cur
      cases rest with
      | nil => exact ⟨[], by rw [wrapWords_one]; simp, rfl⟩
      | cons next rest2 =>
        by_cases hb : sentenceBreak w next = true
        · refine ⟨'\n' :: wrapWords (next :: rest2) 0, wrapWords_cons_brk rest2 cur hb, ?_⟩
          obtain ⟨t2, ht2, htj⟩ := ihS
          exact ⟨'\n', t2, Or.inr rfl, by rw [ht2], htj⟩
        · exact ⟨wrapWords (next :: rest2) (wrapStep cur w.length).2,
            wrapWords_cons_nobrk rest2 cur (by simpa using hb), ihT _ (wrapStep_snd_pos hnl)⟩
    constructor
    · obtain ⟨t, ht, htj⟩ := tailPart 0
      refine ⟨t, ?_, htj⟩
      rw [ht, wrapStep_three (by omega)]
      simp
    · intro cur hcur
      obtain ⟨t, ht, htj⟩ := tailPart cur
      rcases @wrapStep_fst_of_pos cur w.length hcur with hp | hp
      · exact ⟨'\n', t, Or.inr rfl, by rw [ht, hp]; simp, htj⟩
      · exact ⟨' ', t, Or.inl rfl, by rw [ht, hp]; simp, htj⟩

/-! ## Lemmas about splitOnC and the line structure of wrapped output -/

theorem headI_tail_eq {α : Type} [Inhabited α] {l : List α} (h : l ≠ []) :
    l.headI :: l.tail = l := by
  cases l with
  | nil => exact absurd rfl h
  | cons a l1 => rfl

theorem splitOnC_ne_nil (sep : Char) (l : List Char) : splitOnC sep l ≠ [] := by
  cases l with
  | nil => simp [splitOnC]
  | cons c cs => by_cases h : c = sep <;> simp [splitOnC, h]

theorem splitOnC_cons_sep (sep : Char) (cs : List Char) :
    splitOnC sep (sep :: cs) = [] :: splitOnC sep cs := by
  simp [splitOnC]

theorem splitOnC_cons_ne {c sep : Char} (h : c ≠ sep) (cs : List Char) :
    splitOnC sep (c :: cs) =
      (c :: (splitOnC sep cs).headI) :: (splitOnC sep cs).tail := by
  simp [splitOnC, h]

theorem splitOnC_append_no_sep {sep : Char} {w t : List Char} (h : ∀ c ∈ w, c ≠ sep) :
    splitOnC sep (w ++ t) =
      (w ++ (splitOnC sep t).headI) :: (splitOnC sep t).tail := by
  induction w with
  | nil => simpa using (headI_tail_eq (splitOnC_ne_nil sep t)).symm
  | cons c w1 ih =>
    have hc : c ≠ sep := h c (by simp)
    rw [List.cons_append, splitOnC_cons_ne hc, ih (fun d hd => h d (by simp [hd]))]
    simp

theorem mem_splitOnC {sep : Char} :
    ∀ {m l : List Char}, l ∈ splitOnC sep m → ∀ {c : Char}, c ∈ l → c ∈ m ∧ c ≠ sep := by
  intro m
  induction m with
  | nil =>
    intro l hl c hc
    simp [splitOnC] at hl
    subst hl
    simp at hc
  | cons d m1 ih =>
    intro l hl c hc
    by_cases hd : d = sep
    · subst hd
      rw [splitOnC_cons_sep] at hl
      rcases List.mem_cons.mp hl with h1 | h2
      · subst h1; simp at hc
      · have := ih h2 hc
        exact ⟨by simp [this.1], this.2⟩
    · rw [splitOnC_cons_ne hd] at hl
      rcases List.mem_cons.mp hl with h1 | h2
      · subst h1
        rcases List.mem_cons.mp hc with h3 | h3
        · subst h3; exact ⟨by simp, hd⟩
        · have hmem : (splitOnC sep m1).headI ∈ splitOnC sep m1 := by
            rw [← headI_tail_eq (splitOnC_ne_nil sep m1)]
            exact List.mem_cons_self _ _
          have := ih hmem h3
          exact ⟨by simp [this.1], this.2⟩
      · have hmem : l ∈ splitOnC sep m1 := by
          rw [← headI_tail_eq (splitOnC_ne_nil sep m1)]
          exact List.mem_cons_of_mem _ h2
        have := ih hmem hc
        exact ⟨by simp [this.1], this.2⟩

theorem mem_wrapWords :
    ∀ {ws : List (List Char)} {cur : Nat} {c : Char}, c ∈ wrapWords ws cur →
      c = ' ' ∨ c = '\n' ∨ ∃ w ∈ ws, c ∈ w := by
  intro ws
  induction ws with
  | nil => intro cur c hc; simp [wrapWords] at hc
  | cons w rest ih =>
    intro cur c hc
    have hp : ∀ d, d ∈ (wrapStep cur w.length).1 → d = '\n' ∨ d = ' ' := by
      intro d hd
      rcases wrapStep_fst cur w.length with h | h | h <;> rw [h] at hd <;> simp at hd <;> simp [hd]
    cases rest with
    | nil =>
      rw [wrapWords_one] at hc
      rcases List.mem_append.mp hc with h1 | h2
      · rcases hp c h1 with h | h <;> simp [h]
      · exact Or.inr (Or.inr ⟨w, by simp, h2⟩)
    | cons next rest2 =>
      by_cases hb : sentenceBreak w next = true
      · rw [wrapWords_cons_brk rest2 cur hb] at hc
        rcases List.mem_append.mp hc with h1 | h2
        · rcases List.mem_append.mp h1 with h3 | h4
          · rcases hp c h3 with h | h <;> simp [h]
          · exact Or.inr (Or.inr ⟨w, by simp, h4⟩)
        · rcases List.mem_cons.mp h2 with h3 | h4
          · simp [h3]
          · rcases ih h4 with h | h | ⟨x, hx1, hx2⟩
            · simp [h]
            · simp [h]
            · exact Or.inr (Or.inr ⟨x, by simp [hx1], hx2⟩)
      · rw [wrapWords_cons_nobrk rest2 cur (by simpa using hb)] at hc
        rcases List.mem_append.mp hc with h1 | h2
        · rcases List.mem_append.mp h1 with h3 | h4
          · rcases hp c h3 with h | h <;> simp [h]
          · exact Or.inr (Or.inr ⟨w, by simp, h4⟩)
        · rcases ih h2 with h | h | ⟨x, hx1, hx2⟩
          · simp [h]
          · simp [h]
          · exact Or.inr (Or.inr ⟨x, by simp [hx1], hx2⟩)

theorem token_no_newline {w : List Char} (hw : ∀ c ∈ w, goIsSpace c = false) :
    ∀ c ∈ w, c ≠ '\n' := by
  intro c hc heq
  subst heq
  have := hw '\n' hc
  exact absurd this (by decide)

theorem token_no_space {w : List Char} (hw : ∀ c ∈ w, goIsSpace c = false) : ' ' ∉ w := by
  intro hmem
  have := hw ' ' hmem
  exact absurd this (by decide)

theorem splitOnC_headI_wrapWords {ws : List (List Char)} {cur : Nat} (hcur : 0 < cur) :
    (splitOnC '\n' (wrapWords ws cur)).headI = [] ∨
      ' ' ∈ (splitOnC '\n' (wrapWords ws cur)).headI := by
  cases hout : wrapWords ws cur with
  | nil => left; simp [splitOnC]
  | cons c l =>
    rcases wrapWords_head hcur c (by rw [hout]; rfl) with h | h
    · subst h; left; rw [splitOnC_cons_sep]; rfl
    · subst h
      right
      rw [splitOnC_cons_ne (by decide)]
      simp

theorem wrap_bound_assemble {w t : List Char} {cur : Nat} (A : List Char)
    (B : List (List Char))
    (_hw1 : w ≠ []) (hw2 : ∀ c ∈ w, goIsSpace c = false)
    (hsplit : splitOnC '\n' t = A :: B)
    (hAsp : ' ' ∈ A → (wrapStep cur w.length).2 + A.length ≤ 70)
    (hAnil : A = [] ∨ ' ' ∈ A)
    (hB : ∀ l ∈ B, ' ' ∈ l → l.length ≤ 70) :
    (' ' ∈ (splitOnC '\n' ((wrapStep cur w.length).1 ++ w ++ t)).headI →
       cur + (splitOnC '\n' ((wrapStep cur w.length).1 ++ w ++ t)).headI.length ≤ 70)
    ∧ (∀ l ∈ (splitOnC '\n' ((wrapStep cur w.length).1 ++ w ++ t)).tail,
        ' ' ∈ l → l.length ≤ 70) := by
  have hsplitw : splitOnC '\n' (w ++ t) = (w ++ A) :: B := by
    rw [splitOnC_append_no_sep (token_no_newline hw2), hsplit]
    simp
  have hwA : ' ' ∈ w ++ A → ' ' ∈ A := by
    intro hmem
    rcases List.mem_append.mp hmem with h1 | h1
    · exact absurd h1 (token_no_space hw2)
    · exact h1
  by_cases hc0 : 0 < cur
  · by_cases hov : 70 < cur + w.length + 1
    · rw [wrapStep_one hov hc0]
      constructor
      · intro hsp
        rw [List.append_assoc, List.singleton_append, splitOnC_cons_sep, hsplitw] at hsp ⊢
        simp at hsp
      · intro l hl
        rw [List.append_assoc, List.singleton_append, splitOnC_cons_sep, hsplitw] at hl
        simp only [List.tail_cons] at hl
        rcases List.mem_cons.mp hl with h1 | h1
        · subst h1
          intro hsp
          have hA := hAsp (hwA hsp)
          rw [wrapStep_one hov hc0] at hA
          simp at hA ⊢
          omega
        · exact hB l h1
    · rw [wrapStep_two hov hc0]
      have hsplit2 : splitOnC '\n' ((' ' :: w) ++ t) = ((' ' :: w) ++ A) :: B := by
        rw [splitOnC_append_no_sep, hsplit]
        · simp
        intro c hc
        rcases List.mem_cons.mp hc with h1 | h1
        · subst h1; decide
        · exact token_no_newline hw2 c h1
      constructor
      · intro hsp
        rw [List.append_assoc, List.singleton_append, ← List.cons_append, hsplit2] at hsp ⊢
        simp only [List.headI_cons] at hsp ⊢
        rcases hAnil with hA | hA
        · subst hA
          simp
          omega
        · have := hAsp hA
          rw [wrapStep_two hov hc0] at this
          simp at this ⊢
          omega
      · intro l hl
        rw [List.append_assoc, List.singleton_append, ← List.cons_append, hsplit2] at hl
        simp only [List.tail_cons] at hl
        exact hB l hl
  · rw [wrapStep_three hc0]
    have hcur0 : cur = 0 := by omega
    subst hcur0
    constructor
    · intro hsp
      rw [List.nil_append, hsplitw] at hsp ⊢
      simp only [List.headI_cons] at hsp ⊢
      have := hAsp (hwA hsp)
      rw [wrapStep_three (by omega)] at this
      simp at this ⊢
      omega
    · intro l hl
      rw [List.nil_append, hsplitw] at hl
      simp only [List.tail_cons] at hl
      exact hB l hl

theorem wrap_lines_bound {ws : List (List Char)} (h : tokensOK ws) : ∀ cur : Nat,
    (' ' ∈ (splitOnC '\n' (wrapWords ws cur)).headI →
       cur + (splitOnC '\n' (wrapWords ws cur)).headI.length ≤ 70)
    ∧ (∀ l ∈ (splitOnC '\n' (wrapWords ws cur)).tail, ' ' ∈ l → l.length ≤ 70) := by
  induction ws with
  | nil =>
    intro cur
    constructor
    · intro hsp; simp [wrapWords, splitOnC] at hsp
    · intro l hl; simp [wrapWords, splitOnC] at hl
  | cons w rest ih =>
    intro cur
    have hw := h w (by simp)
    have hrest : tokensOK rest := fun x hx => h x (by simp [hx])
    have hnl : 0 < w.length := List.length_pos.mpr hw.1
    cases rest with
    | nil =>
      have hout : wrapWords [w] cur = (wrapStep cur w.length).1 ++ w ++ ([] : List Char) := by
        rw [wrapWords_one]; simp
      rw [hout]
      exact wrap_bound_assemble [] [] hw.1 hw.2 (by simp [splitOnC])
        (by intro hsp; simp at hsp) (Or.inl rfl) (by intro l hl; simp at hl)
    | cons next rest2 =>
      by_cases hb : sentenceBreak w next = true
      · rw [wrapWords_cons_brk rest2 cur hb]
        have hs0 := ih hrest 0
        refine wrap_bound_assemble [] (splitOnC '\n' (wrapWords (next :: rest2) 0))
          hw.1 hw.2
          (by rw [splitOnC_cons_sep]) (by intro hsp; simp at hsp) (Or.inl rfl) ?_
        intro l hl hsp
        rw [← headI_tail_eq (splitOnC_ne_nil '\n' (wrapWords (next :: rest2) 0))] at hl
        rcases List.mem_cons.mp hl with h1 | h1
        · subst h1
          have := hs0.1 hsp
          omega
        · exact hs0.2 l h1 hsp
      · rw [wrapWords_cons_nobrk rest2 cur (by simpa using hb)]
        have hpos : 0 < (wrapStep cur w.length).2 := wrapStep_snd_pos hnl
        have hs := ih hrest (wrapStep cur w.length).2
        refine wrap_bound_assemble
          (splitOnC '\n' (wrapWords (next :: rest2) (wrapStep cur w.length).2)).headI
          (splitOnC '\n' (wrapWords (next :: rest2) (wrapStep cur w.length).2)).tail
          hw.1 hw.2
          (headI_tail_eq (splitOnC_ne_nil _ _)).symm hs.1 (splitOnC_headI_wrapWords hpos) hs.2

/-! ## Claim theorems -/

/-- C3 counterexample: the claim predicts a forced break only after a token
that ENDS in a sentence mark, but the code tests strings.ContainsAny.  On
the input 3.5 kg no token ends in a mark and the two tokens fit well within
width 70, so under the claim the output would be unchanged; the program
still breaks the line after 3.5 because that token contains a period. -/
theorem C3_counterexample :
    wrapText "3.5 kg" = "3.5\nkg"
    ∧ wrapText "3.5 kg" ≠ "3.5 kg"
    ∧ (∀ w ∈ fields ("3.5 kg").data, endsInMark w = false) := by
  refine ⟨by decide, by decide, by decide⟩

/-- C3 (amended): a forced sentence break is emitted immediately after a
non-final token exactly when the token CONTAINS one of the marks period,
exclamation mark, question mark and the next token does not begin with a
closing parenthesis or a comma; after the break the running length
restarts at zero, while without it the loop continues with a positive
running length.  No forced break follows the final token.  Wrapping the
text Hello world. Bye! yields the two lines Hello world. and Bye!. -/
theorem C3_sentence_break :
    (∀ (w next : List Char) (rest : List (List Char)) (cur : Nat),
      (sentenceBreak w next = true →
        ∃ p, (p = [] ∨ p = ['\n'] ∨ p = [' ']) ∧
          wrapWords (w :: next :: rest) cur = p ++ w ++ '\n' :: wrapWords (next :: rest) 0)
      ∧ (sentenceBreak w next = false → w ≠ [] →
        ∃ p cur2, (p = [] ∨ p = ['\n'] ∨ p = [' ']) ∧ 0 < cur2 ∧
          wrapWords (w :: next :: rest) cur = p ++ w ++ wrapWords (next :: rest) cur2))
    ∧ (∀ w next, sentenceBreak w next = true ↔
        (containsMark w = true ∧ next.head? ≠ some ')' ∧ next.head? ≠ some ','))
    ∧ (∀ (w : List Char) (cur : Nat), ∃ p, (p = [] ∨ p = ['\n'] ∨ p = [' ']) ∧
        wrapWords [w] cur = p ++ w)
    ∧ wrapText "Hello world. Bye!" = "Hello world.\nBye!" := by
  refine ⟨?_, ?_, ?_, by decide⟩
  · intro w next rest cur
    constructor
    · intro hb
      exact ⟨(wrapStep cur w.length).1, wrapStep_fst cur w.length, wrapWords_cons_brk rest cur hb⟩
    · intro hb hw
      exact ⟨(wrapStep cur w.length).1, (wrapStep cur w.length).2, wrapStep_fst cur w.length,
        wrapStep_snd_pos (List.length_pos.mpr hw), wrapWords_cons_nobrk rest cur hb⟩
  · intro w next
    simp only [sentenceBreak, Bool.and_eq_true, Bool.not_eq_true', beq_eq_false_iff_ne,
      ne_eq]
    tauto
  · intro w cur
    exact ⟨(wrapStep cur w.length).1, wrapStep_fst cur w.length, wrapWords_one w cur⟩

/-- Witness for C3: at the token world. followed by Bye! the break
condition holds and the theorem produces the forced break; at Hello
followed by world. it fails and the loop continues unbroken. -/
theorem C3_sentence_break_witness :
    (sentenceBreak "world.".data "Bye!".data = true
      ∧ ∃ p, (p = [] ∨ p = ['\n'] ∨ p = [' ']) ∧
          wrapWords ["world.".data, "Bye!".data] 5 =
            p ++ "world.".data ++ '\n' :: wrapWords ["Bye!".data] 0)
    ∧ (sentenceBreak "Hello".data "world.".data = false
      ∧ ∃ p cur2, (p = [] ∨ p = ['\n'] ∨ p = [' ']) ∧ 0 < cur2 ∧
          wrapWords ["Hello".data, "world.".data] 0 =
            p ++ "Hello".data ++ wrapWords ["world.".data] cur2) := by
  have hb : sentenceBreak "world.".data "Bye!".data = true := by decide
  have hb2 : sentenceBreak "Hello".data "world.".data = false := by decide
  exact ⟨⟨hb, (C3_sentence_break.1 "world.".data "Bye!".data [] 5).1 hb⟩,
         ⟨hb2, (C3_sentence_break.1 "Hello".data "world.".data [] 0).2 hb2 (by decide)⟩⟩

/-- C4: lines of the wrapped output that hold two or more tokens (hence
contain a separator space) never exceed 70 runes, so any line longer than
70 runes is a single token; a lone word is returned unbroken whatever its
length, and the empty string wraps to the empty string. -/
theorem C4_width_bound (s : String) :
    (∀ l ∈ splitOnC '\n' (wrapText s).data, 70 < l.length → fields l = [l])
    ∧ (∀ l ∈ splitOnC '\n' (wrapText s).data, ' ' ∈ l → l.length ≤ 70)
    ∧ (∀ w, fields s.data = [w] → (wrapText s).data = w)
    ∧ wrapText "" = "" := by
  have htok := fields_tokens s.data
  have hb := wrap_lines_bound htok 0
  have hdata : (wrapText s).data = wrapWords (fields s.data) 0 := rfl
  have hallb : ∀ l ∈ splitOnC '\n' (wrapText s).data, ' ' ∈ l → l.length ≤ 70 := by
    intro l hl hsp
    rw [hdata, ← headI_tail_eq (splitOnC_ne_nil '\n' (wrapWords (fields s.data) 0))] at hl
    rcases List.mem_cons.mp hl with h1 | h1
    · subst h1
      have := hb.1 hsp
      omega
    · exact hb.2 l h1 hsp
  refine ⟨?_, hallb, ?_, rfl⟩
  · intro l hl hlen
    have hnosp : ' ' ∉ l := fun hsp => by have := hallb l hl hsp; omega
    have hchars : ∀ c ∈ l, goIsSpace c = false := by
      intro c hc
      have hm := mem_splitOnC hl hc
      have hmw : c ∈ wrapWords (fields s.data) 0 := by rw [← hdata]; exact hm.1
      rcases mem_wrapWords hmw with h1 | h1 | ⟨w, hw1, hw2⟩
      · subst h1; exact absurd hc hnosp
      · exact absurd h1 hm.2
      · exact (htok w hw1).2 c hw2
    have hne : l ≠ [] := by
      intro h0
      subst h0
      simp at hlen
    have := @fields_append l [] hne hchars trivial
    simpa using this
  · intro w hfw
    show wrapWords (fields s.data) 0 = w
    rw [hfw, wrapWords_one, wrapStep_three (by omega)]
    simp

/-- Witness for C4: the 71-rune single word is itself a line of its own
wrapped output, is longer than 70 runes, forms a single token, and is
returned unbroken. -/
theorem C4_width_bound_witness :
    longWord.data ∈ splitOnC '\n' (wrapText longWord).data
    ∧ 70 < longWord.data.length
    ∧ fields longWord.data = [longWord.data]
    ∧ (wrapText longWord).data = longWord.data := by
  have h1 : longWord.data ∈ splitOnC '\n' (wrapText longWord).data := by decide
  have h2 : 70 < longWord.data.length := by decide
  exact ⟨h1, h2, (C4_width_bound longWord).1 longWord.data h1 h2,
    (C4_width_bound longWord).2.2.1 longWord.data (by decide)⟩

/-- C5: wrapping is idempotent, because the wrapped output splits into
exactly the tokens of the input (separators being white space), and the
wrap of a text depends only on its tokens. -/
theorem C5_wrap_idempotent (s : String) : wrapText (wrapText s) = wrapText s := by
  show String.mk (wrapWords (fields (wrapText s).data) 0) = wrapText s
  have hdata : (wrapText s).data = wrapWords (fields s.data) 0 := rfl
  rw [hdata, fields_wrapWords (fields_tokens s.data)]
  rfl

/-- C10: splitting the wrapped output on white space recovers exactly the
tokens of the input, in order; and the output is precisely those tokens
joined by single separators, each a space or a newline, with no leading
and no trailing separator. -/
theorem C10_token_preservation (s : String) :
    fields (wrapText s).data = fields s.data
    ∧ sepJoined (fields s.data) (wrapText s).data := by
  constructor
  · show fields (wrapWords (fields s.data) 0) = fields s.data
    rw [fields_wrapWords (fields_tokens s.data)]
  · exact (wrap_joined (fields_tokens s.data)).1

/-- The verse header printed for a selected sloka, as an infix of the full
output: everything before it is the initial blank line and the optional
chapter block, everything after it is the text blocks. -/
theorem renderOutput_header (flags : Flags) (all : AllSlokas) (s : Sloka) :
    ∃ a b : List Char, (renderOutput flags all s).data =
      a ++ (Bold ++ "Chapter " ++ toString s.chapter ++ ", Verse " ++ toString s.verse
        ++ Reset ++ "\n\n").data ++ b := by
  refine ⟨("\n" ++ (if flags.chapterInfo then chapterBlock all.chapters s.chapter else "")).data,
    (textLines '\n' s.slok ++ "\n" ++ textLines '.' s.transliteration ++ "\n"
      ++ wrapText (pickTranslation flags.translation s).1 ++ "\n"
      ++ Dim ++ "(" ++ (pickTranslation flags.translation s).2 ++ ")" ++ Reset ++ "\n"
      ++ "\n").data, ?_⟩
  simp [renderOutput, String.data_append, List.append_assoc]

/-- C1: with both flag values positive, the program scans the verse list in
load order and selects the first verse whose chapter and verse equal the
flag values; when none matches it prints the not-found message and exits
with code 1, printing nothing else; when one matches it exits 0 and the
printed header carries exactly the flag values. -/
theorem C1_exact_lookup (flags : Flags) (all : AllSlokas) (r : Nat)
    (hc : 0 < flags.c) (hv : 0 < flags.v)
    (hts : validSource flags.translation = true) :
    (findSloka all.slokas flags.c flags.v = none →
      runMain flags none (.ok all) r =
        ⟨"Chapter " ++ toString flags.c ++ ", Verse " ++ toString flags.v ++ " not found.\n",
         "", 1⟩)
    ∧ (∀ s, findSloka all.slokas flags.c flags.v = some s →
        s.chapter = flags.c ∧ s.verse = flags.v
        ∧ (∃ pre post, all.slokas = pre ++ s :: post ∧
            ∀ x ∈ pre, ¬(x.chapter = flags.c ∧ x.verse = flags.v))
        ∧ runMain flags none (.ok all) r = ⟨renderOutput flags all s, "", 0⟩
        ∧ ∃ a b : List Char, (renderOutput flags all s).data =
            a ++ (Bold ++ "Chapter " ++ toString flags.c ++ ", Verse " ++ toString flags.v
              ++ Reset ++ "\n\n").data ++ b) := by
  constructor
  · intro hnone
    simp [runMain, hts, selectSloka, hc, hv, hnone]
  · intro s hsome
    have hps := List.find?_some hsome
    have heq : s.chapter = flags.c ∧ s.verse = flags.v := by
      simpa [Bool.and_eq_true, beq_iff_eq] using hps
    refine ⟨heq.1, heq.2, ?_, ?_, ?_⟩
    · obtain ⟨-, pre, post, hsplit, hpre⟩ := List.find?_eq_some.mp hsome
      refine ⟨pre, post, hsplit, ?_⟩
      intro x hx hcontr
      have := hpre x hx
      simp [Bool.and_eq_true, beq_iff_eq] at this
      rcases this with h1 | h1
      · exact h1 hcontr.1
      · exact h1 hcontr.2
    · simp [runMain, hts, selectSloka, hc, hv, hsome]
    · rw [← heq.1, ← heq.2]
      exact renderOutput_header flags all s

/-- Witness for C1: looking up chapter 2 verse 47 in the demo corpus finds
demoSloka and the run succeeds with its rendered output. -/
theorem C1_exact_lookup_witness :
    findSloka demoAll.slokas 2 47 = some demoSloka
    ∧ runMain ⟨"siva", false, 2, 47⟩ none (.ok demoAll) 0 =
        ⟨renderOutput ⟨"siva", false, 2, 47⟩ demoAll demoSloka, "", 0⟩ := by
  have hf : findSloka demoAll.slokas 2 47 = some demoSloka := by decide
  have h := (C1_exact_lookup ⟨"siva", false, 2, 47⟩ demoAll 0 (by decide) (by decide)
    (by decide)).2 demoSloka hf
  exact ⟨hf, h.2.2.2.1⟩

/-- C2: whenever the two lookup flags are not both positive the run is
literally the run with both flags zero; given a successfully parsed corpus
it fails with exit 1 on an empty verse list, and otherwise, for the random
index r below the length, it prints the verse at index r, a member of the
corpus, whose chapter and verse numbers appear in the printed header. -/
theorem C2_random_fallback (flags : Flags) (readErr : Option String)
    (parsed : Except String AllSlokas) (r : Nat)
    (h : ¬(0 < flags.c ∧ 0 < flags.v)) :
    runMain flags readErr parsed r =
      runMain ⟨flags.translation, flags.chapterInfo, 0, 0⟩ readErr parsed r
    ∧ ∀ all, parsed = .ok all → readErr = none → validSource flags.translation = true →
        (all.slokas.length = 0 →
          runMain flags readErr parsed r = ⟨"No slokas found in the JSON data.\n", "", 1⟩)
        ∧ ∀ hr : r < all.slokas.length,
            all.slokas.get ⟨r, hr⟩ ∈ all.slokas
            ∧ runMain flags readErr parsed r =
                ⟨renderOutput flags all (all.slokas.get ⟨r, hr⟩), "", 0⟩
            ∧ ∃ a b : List Char,
                (renderOutput flags all (all.slokas.get ⟨r, hr⟩)).data =
                  a ++ (Bold ++ "Chapter " ++ toString (all.slokas.get ⟨r, hr⟩).chapter
                    ++ ", Verse " ++ toString (all.slokas.get ⟨r, hr⟩).verse
                    ++ Reset ++ "\n\n").data ++ b := by
  constructor
  · simp [runMain, selectSloka, h, renderOutput]
  · intro all hall hre hts
    subst hall
    subst hre
    constructor
    · intro hl0
      simp [runMain, hts, selectSloka, h, hl0]
    · intro hr
      have hne : ¬ all.slokas.length = 0 := by omega
      refine ⟨List.get_mem _ _ _, ?_, renderOutput_header flags all _⟩
      simp [runMain, hts, selectSloka, h, hne, hr]

/-- Witness for C2: with default flags (no lookup requested) on the demo
corpus and random index 0 the program prints the only verse. -/
theorem C2_random_fallback_witness :
    runMain defaultFlags none (.ok demoAll) 0 =
      ⟨renderOutput defaultFlags demoAll demoSloka, "", 0⟩ := by
  have h := ((C2_random_fallback defaultFlags none (.ok demoAll) 0 (by decide)).2
    demoAll rfl rfl (by decide)).2 (by decide)
  exact h.2.1

/-- C6: an invalid translator source makes the program print the usage
message naming the valid options and exit with code 1, independently of
the dataset read result, the parse result and the random draw, so nothing
of the dataset is consumed and no verse output is produced. -/
theorem C6_invalid_source (flags : Flags) (h : flags.translation ∉ validSources)
    (d d2 : Option String) (p p2 : Except String AllSlokas) (r r2 : Nat) :
    runMain flags d p r =
      ⟨"Invalid translation source: " ++ flags.translation ++ "\n"
        ++ "Valid sources: siva, purohit, adi, san, tej, chinmay\n", "", 1⟩
    ∧ runMain flags d p r = runMain flags d2 p2 r2 := by
  have hv : validSource flags.translation = false := by
    simpa [validSource] using h
  constructor <;> simp [runMain, hv]

/-- Witness for C6: the source foo is rejected with the usage message. -/
theorem C6_invalid_source_witness :
    "foo" ∉ validSources
    ∧ runMain ⟨"foo", false, 0, 0⟩ none (.ok demoAll) 0 =
        ⟨"Invalid translation source: foo\nValid sources: siva, purohit, adi, san, tej, chinmay\n",
         "", 1⟩ := by
  have h : ("foo" : String) ∉ validSources := by decide
  have h2 := (C6_invalid_source ⟨"foo", false, 0, 0⟩ h none none (.ok demoAll) (.ok demoAll) 0 0).1
  exact ⟨h, h2.trans (by decide)⟩

/-- C7 counterexample: an error run (invalid translator source) exits with
code 1 and prints its message, but the standard error stream stays empty:
every message of main.go goes through fmt.Printf or fmt.Println, which
write to standard output, so the claim that errors are reported on the
standard error stream fails. -/
theorem C7_counterexample :
    (runMain ⟨"bar", false, 0, 0⟩ none (.ok demoAll) 0).exitCode = 1
    ∧ (runMain ⟨"bar", false, 0, 0⟩ none (.ok demoAll) 0).stderr = ""
    ∧ (runMain ⟨"bar", false, 0, 0⟩ none (.ok demoAll) 0).stdout ≠ "" :=
  ⟨by decide, by decide, by decide⟩

/-- C7 (amended): every error kind (invalid translator source, unreadable
embedded dataset, malformed dataset, empty corpus, verse not found) prints
a short human-readable message to STANDARD OUTPUT and terminates with exit
code 1; nothing is ever written to standard error, and no error is retried
or recovered. -/
theorem C7_error_channel (flags : Flags) (readErr : Option String)
    (parsed : Except String AllSlokas) (r : Nat) :
    (runMain flags readErr parsed r).stderr = ""
    ∧ (validSource flags.translation = false →
        runMain flags readErr parsed r =
          ⟨"Invalid translation source: " ++ flags.translation ++ "\n"
            ++ "Valid sources: siva, purohit, adi, san, tej, chinmay\n", "", 1⟩)
    ∧ (validSource flags.translation = true → ∀ e, readErr = some e →
        runMain flags readErr parsed r =
          ⟨"Error reading embedded data: " ++ e ++ "\n", "", 1⟩)
    ∧ (validSource flags.translation = true → readErr = none → ∀ e, parsed = .error e →
        runMain flags readErr parsed r = ⟨"Error parsing JSON: " ++ e ++ "\n", "", 1⟩)
    ∧ (validSource flags.translation = true → readErr = none → ∀ all, parsed = .ok all →
        0 < flags.c → 0 < flags.v → findSloka all.slokas flags.c flags.v = none →
        runMain flags readErr parsed r =
          ⟨"Chapter " ++ toString flags.c ++ ", Verse " ++ toString flags.v
            ++ " not found.\n", "", 1⟩)
    ∧ (validSource flags.translation = true → readErr = none → ∀ all, parsed = .ok all →
        ¬(0 < flags.c ∧ 0 < flags.v) → all.slokas.length = 0 →
        runMain flags readErr parsed r = ⟨"No slokas found in the JSON data.\n", "", 1⟩) := by
  refine ⟨?_, ?_, ?_, ?_, ?_, ?_⟩
  · by_cases hv : validSource flags.translation = false
    · simp [runMain, hv]
    · have hv2 : validSource flags.translation = true := by simpa using hv
      cases readErr with
      | some e => simp [runMain, hv2]
      | none =>
        cases parsed with
        | error e => simp [runMain, hv2]
        | ok all =>
          cases hsel : selectSloka all.slokas flags.c flags.v r with
          | error msg => simp [runMain, hv2, hsel]
          | ok s => simp [runMain, hv2, hsel]
  · intro hv
    simp [runMain, hv]
  · intro hv e hre
    subst hre
    simp [runMain, hv]
  · intro hv hre e hp
    subst hre
    subst hp
    simp [runMain, hv]
  · intro hv hre all hp hcc hvv hnone
    subst hre
    subst hp
    simp [runMain, hv, selectSloka, hcc, hvv, hnone]
  · intro hv hre all hp hno hl0
    subst hre
    subst hp
    simp [runMain, hv, selectSloka, hno, hl0]

/-- Witness for C7: the invalid source foo yields the usage message on
standard output with exit code 1. -/
theorem C7_error_channel_witness :
    runMain ⟨"foo", true, 2, 3⟩ none (.ok demoAll) 0 =
      ⟨"Invalid translation source: foo\nValid sources: siva, purohit, adi, san, tej, chinmay\n",
       "", 1⟩ := by
  have h := (C7_error_channel ⟨"foo", true, 2, 3⟩ none (.ok demoAll) 0).2.1 (by decide)
  exact h.trans (by decide)

/-- C8: the translation flag defaults to siva; each valid source selects
exactly its own text field (et for siva, purohit, adi, san; ht for tej; hc
for chinmay) and author; and the rendered output ends with the wrapped
commentary followed by the dim parenthesised author byline. -/
theorem C8_translator_dispatch :
    defaultFlags.translation = "siva"
    ∧ (∀ s : Sloka,
        pickTranslation "siva" s = (s.siva.et, s.siva.author)
        ∧ pickTranslation "purohit" s = (s.purohit.et, s.purohit.author)
        ∧ pickTranslation "adi" s = (s.adi.et, s.adi.author)
        ∧ pickTranslation "san" s = (s.san.et, s.san.author)
        ∧ pickTranslation "tej" s = (s.tej.ht, s.tej.author)
        ∧ pickTranslation "chinmay" s = (s.chinmay.hc, s.chinmay.author))
    ∧ (∀ (flags : Flags) (all : AllSlokas) (s : Sloka), ∃ a : List Char,
        (renderOutput flags all s).data =
          a ++ (wrapText (pickTranslation flags.translation s).1 ++ "\n"
            ++ Dim ++ "(" ++ (pickTranslation flags.translation s).2 ++ ")" ++ Reset
            ++ "\n" ++ "\n").data) := by
  refine ⟨rfl, ?_, ?_⟩
  · intro s
    exact ⟨rfl, rfl, rfl, rfl, rfl, rfl⟩
  · intro flags all s
    refine ⟨("\n" ++ (if flags.chapterInfo then chapterBlock all.chapters s.chapter else "")
      ++ Bold ++ "Chapter " ++ toString s.chapter ++ ", Verse " ++ toString s.verse
      ++ Reset ++ "\n\n"
      ++ textLines '\n' s.slok ++ "\n" ++ textLines '.' s.transliteration ++ "\n").data, ?_⟩
    simp [renderOutput, String.data_append, List.append_assoc]

/-- C9: when no chapter record matches the selected verse chapter, the
chapter block is the empty string, the output with the chapter-info flag
set is byte for byte the output without it, and a run whose selection
yields that verse succeeds identically with and without the flag. -/
theorem C9_chapter_info_frame (flags : Flags) (all : AllSlokas) (s : Sloka)
    (h : all.chapters.find? (fun ch => ch.chapterNumber == s.chapter) = none) :
    chapterBlock all.chapters s.chapter = ""
    ∧ renderOutput ⟨flags.translation, true, flags.c, flags.v⟩ all s
        = renderOutput ⟨flags.translation, false, flags.c, flags.v⟩ all s
    ∧ ∀ (readErr : Option String) (r : Nat),
        selectSloka all.slokas flags.c flags.v r = .ok s →
        runMain ⟨flags.translation, true, flags.c, flags.v⟩ readErr (.ok all) r =
          runMain ⟨flags.translation, false, flags.c, flags.v⟩ readErr (.ok all) r := by
  have hb : chapterBlock all.chapters s.chapter = "" := by simp [chapterBlock, h]
  have hrend : renderOutput ⟨flags.translation, true, flags.c, flags.v⟩ all s
      = renderOutput ⟨flags.translation, false, flags.c, flags.v⟩ all s := by
    simp [renderOutput, hb]
  refine ⟨hb, hrend, ?_⟩
  intro readErr r hsel
  by_cases hv : validSource flags.translation = false
  · simp [runMain, hv]
  · have hv2 : validSource flags.translation = true := by simpa using hv
    cases readErr with
    | some e => simp [runMain, hv2]
    | none => simp [runMain, hv2, hsel, hrend]

/-- Witness for C9: the demo corpus without chapter records renders the
demo verse identically with and without the chapter-info flag. -/
theorem C9_chapter_info_frame_witness :
    demoNoChapters.chapters.find? (fun ch => ch.chapterNumber == demoSloka.chapter) = none
    ∧ renderOutput ⟨"siva", true, 0, 0⟩ demoNoChapters demoSloka
        = renderOutput ⟨"siva", false, 0, 0⟩ demoNoChapters demoSloka := by
  have h : demoNoChapters.chapters.find? (fun ch => ch.chapterNumber == demoSloka.chapter)
      = none := rfl
  exact ⟨h, (C9_chapter_info_frame ⟨"siva", false, 0, 0⟩ demoNoChapters demoSloka h).2.1⟩

end Gitasay
